import Mathlib

/-!
Verification development for the `epv` email extraction service.

The definitions below are a shallow embedding of the Rust sources:
`src/util.rs` (the generation-evicted `Cache`), `src/sql.rs` (the `Email`
record), `src/config.rs` (`Config` and `Macro`), and
`src/api/execute_script.rs` (the element and action algebras, the action
executor, the pipeline driver and the tabular result shaper).

Machine integers are embedded as `Nat`/`Int` with explicit reductions
modulo `2 ^ 64` (for `usize`) and modulo `2 ^ 8` (for `i8`) where the
source relies on wrapping behaviour.  Library calls (the regex engine,
the CSS selector engine, the HTML parser, the URL parser, the file
system and the HTTP client) are abstracted as an `Oracles` record of
pure functions; everything the repository itself computes is embedded
directly.  The concurrent fan-out of a pipeline stage is modelled by the
deterministic schedule that runs the per-element tasks in input-index
order and concatenates their emissions; ordering across tasks is
unspecified in the source, and no claim below depends on it.
-/

namespace EPV

/-- The modulus of Rust's `usize` on the 64-bit target. -/
def USIZE : Nat := 2 ^ 64

/-- Rust's `usize::wrapping_sub`: `(a - b) mod 2^64`. -/
def wrappingSub (a b : Nat) : Nat := (a + USIZE - b % USIZE) % USIZE

/-- One value stored in `util.rs`'s `Cache`: the cached value and the
generation (`id`) stamped at insertion time. -/
structure CacheEntry (V : Type) where
  value : V
  id : Nat
deriving DecidableEq, Repr

/-- The concurrent bounded map of `util.rs`.  The `DashMap` is embedded
as an association list with pairwise-distinct keys maintained by
`insert`; `last_id` mirrors the `AtomicUsize` counter. -/
structure Cache (K V : Type) (N : Nat) where
  data : List (K × CacheEntry V)
  last_id : Nat
deriving Repr

/-- `Cache::new` from `util.rs`. -/
def Cache.new {K V : Type} {N : Nat} : Cache K V N :=
  { data := [], last_id := 0 }

/-- `Cache::insert` from `util.rs`, exactly as written: fetch-and-add
the counter to obtain `id`, store the entry under `key` (replacing any
entry with the same key, as `DashMap::insert` does), and, when the map
size has reached `N`, run `retain(|_k, v| id.wrapping_sub(v.id) >= N)`,
which KEEPS exactly the entries whose wrapped age is at least `N`. -/
def Cache.insert {K V : Type} {N : Nat} [DecidableEq K]
    (c : Cache K V N) (key : K) (value : V) : Cache K V N :=
  let id := c.last_id % USIZE
  let inserted := (key, CacheEntry.mk value id) :: c.data.filter (fun e => e.1 ≠ key)
  let data :=
    if N ≤ inserted.length then
      inserted.filter (fun e => N ≤ wrappingSub id e.2.id)
    else inserted
  { data := data, last_id := (id + 1) % USIZE }

/-- `Cache::get` from `util.rs`: a lookup by key. -/
def Cache.get {K V : Type} {N : Nat} [DecidableEq K]
    (c : Cache K V N) (key : K) : Option (CacheEntry V) :=
  (c.data.find? (fun e => e.1 = key)).map (·.2)

/-- The insert operation as the specification words it (spec §4.3):
store the new entry with the next counter value as its generation and,
when the map size is at least `N`, REMOVE every entry whose
`counter − generation` is at least `N` (wrap-safe), retaining the rest.
This definition follows the spec's words and exists only to be compared
with `Cache.insert`, which follows the source. -/
def Cache.insertSpec {K V : Type} {N : Nat} [DecidableEq K]
    (c : Cache K V N) (key : K) (value : V) : Cache K V N :=
  let id := c.last_id % USIZE
  let inserted := (key, CacheEntry.mk value id) :: c.data.filter (fun e => e.1 ≠ key)
  let data :=
    if N ≤ inserted.length then
      inserted.filter (fun e => wrappingSub id e.2.id < N)
    else inserted
  { data := data, last_id := (id + 1) % USIZE }

/-- Folding `Cache.insert` over a list of key/value pairs, leftmost
pair inserted first. -/
def Cache.insertAll {K V : Type} {N : Nat} [DecidableEq K]
    (c : Cache K V N) (kvs : List (K × V)) : Cache K V N :=
  kvs.foldl (fun acc kv => acc.insert kv.1 kv.2) c

/-- The inductive invariant of reachable cache states (under inserts
with keys fresh for the current map): the counter is a `usize`, the map
is strictly below capacity, and every live entry's wrapped age (relative
to the next counter value) is between `1` and the map size. -/
def CacheInv {K V : Type} {N : Nat} (c : Cache K V N) : Prop :=
  c.last_id < USIZE ∧ c.data.length < N ∧
    ∀ e ∈ c.data, e.2.id < USIZE ∧
      1 ≤ wrappingSub c.last_id e.2.id ∧
      wrappingSub c.last_id e.2.id ≤ c.data.length

/-- The email record of `src/sql.rs`. -/
structure Email where
  id : String
  html : String
  user : String
  registered : Int
  from_addr : String
  to_addr : String
  subject : String
deriving DecidableEq, Repr

/-- The `EmailAttribute` enum of `src/api/execute_script.rs`. -/
inductive EmailAttribute where
  | Id
  | FromAddress
  | ToAddress
  | Subject
deriving DecidableEq, Repr

/-- `Email::get_attribute` from `src/sql.rs`. -/
def Email.get_attribute (e : Email) : EmailAttribute → String
  | .Id => e.id
  | .FromAddress => e.from_addr
  | .Subject => e.subject
  | .ToAddress => e.to_addr

/-- A parsed absolute URL (the `url::Url` type), abstracted to the three
observations the executor makes of it: its serialization, its path
segment iterator (`None` for cannot-be-a-base URLs) and its query
pairs in order. -/
structure Url where
  to_string : String
  path_segments : Option (List String)
  query_pairs : List (String × String)
deriving DecidableEq, Repr

/-- The `Element` enum of `src/api/execute_script.rs`: the tagged value
flowing between pipeline stages. -/
inductive Element where
  | Html (s : String)
  | Text (s : String)
  | Email (e : Email)
  | Url (u : Url)
  | Pair (left right : List Element)
deriving Repr

/-- The `SerdeElement` enum of `src/api/execute_script.rs`: the
serializable projection of an element. -/
inductive SerdeElement where
  | Html (s : String)
  | Text (s : String)
  | Email (id : String)
  | Url (s : String)
  | Pair (left right : List SerdeElement)
deriving Repr

/-- The `Error` enum of `src/rocket_types.rs`. -/
inductive Error where
  | InternalError
  | Unauthorized
  | InvalidInput (data : String)
  | NotFound
  | Ratelimited
deriving DecidableEq, Repr

/-- The `Action` enum of `src/api/execute_script.rs`.  `UrlGetSegment`
carries an `i8` in the source, embedded as an `Int` (theorems restrict
it to the `i8` range where relevant); `ArraySelectNth` carries a
`usize`, embedded as a `Nat`. -/
inductive Action where
  | EmailToHtml
  | EmailFilterRegex (attr : EmailAttribute) (re : String)
  | EmailGetAttr (attr : EmailAttribute)
  | HtmlInnerText
  | HtmlOuterHtml
  | HtmlInnerHtml
  | HtmlGetAttr (k : String)
  | HtmlSelectCss (sel : String)
  | HtmlFilterCss (sel : String)
  | TextMatchRegex (re tmpl : String)
  | TextFilterRegex (re : String)
  | TextToHtml
  | TextToUrl
  | UrlToText
  | UrlFollowRedirect
  | UrlGetQuery (k : String)
  | UrlGetSegment (i : Int)
  | ArraySelectNth (i : Nat)
  | PairGetLeft
  | PairGetRight
  | PairZipTogether
  | PairDistributeLeft
  | PairRightLeft
  | Macro (name : String)
  | Or (a b : List Action)
  | Pair (a b : List Action)
  | Filter (a : List Action)
deriving Repr

/-- The `Macro` struct of `src/config.rs`: a named stored action list. -/
structure Macro where
  name : String
  actions : List Action
deriving Repr

/-- The part of `Storage` (`src/config.rs`) the engine reads. -/
structure Storage where
  file_root : String
deriving Repr

/-- The part of `Config` (`src/config.rs`) the engine reads. -/
structure Config where
  storage : Storage
  macros : List Macro
deriving Repr

/-- Pure oracles standing for the external libraries the executor
calls.  Each field abstracts exactly one library entry point consumed by
`src/api/execute_script.rs`; the repository's own logic around these
calls is embedded directly in `execAction`. -/
structure Oracles where
  read_to_string : String → Except Unit String
  selector_ok : String → Bool
  css_select : String → String → List String
  fragment_inner_text : String → Option String
  fragment_inner_html : String → Option String
  fragment_attr : String → String → Option String
  regex_ok : String → Bool
  regex_captures_expand : String → String → String → List String
  regex_is_match : String → String → Bool
  url_parse : String → Option Url
  cache_get : Url → Option Url
  client_build_ok : Bool
  http_get : Url → Option Url

/-- Two's-complement wrapping of an `Int` into the `i8` range, the
release-mode semantics of Rust `i8` arithmetic. -/
def wrapI8 (x : Int) : Int := (x + 128) % 256 - 128

/-- Membership of an `Int` in the value range of Rust's `i8`. -/
def i8InRange (x : Int) : Prop := -128 ≤ x ∧ x ≤ 127

instance (x : Int) : Decidable (i8InRange x) := by
  unfold i8InRange; infer_instance

/-- Rust's `as usize` on an `i8` value: sign-extend and reinterpret,
i.e. reduce modulo `2 ^ 64` into a natural number. -/
def i8_as_usize (x : Int) : Nat := (x % (USIZE : Int)).toNat

/-- The from-the-end offset the executor computes for a negative
`UrlGetSegment` index: `(-*segment_index - 1) as usize`, with both `i8`
operations wrapping (`src/api/execute_script.rs` line 394). -/
def url_segment_neg_offset (i : Int) : Nat :=
  i8_as_usize (wrapI8 (wrapI8 (-i) - 1))

/-- The result of a pipeline (or of one executor task): `none` stands
for exhaustion of the fuel bounding the recursion depth of nested
sub-pipelines (the Rust recursion is unbounded and can diverge through
mutually recursive macros and combinators); `some` carries the
`Result<Vec<Element>, Error>` of the source. -/
abbrev PipelineResult := Option (Except Error (List Element))

/-- The static input-variant precondition of each action: `true` exactly
when the pair `(action, element)` is covered by one of the non-catch-all
arms of the `match` in `exec_action` (`src/api/execute_script.rs`
lines 138-534). -/
def inputMatches : Action → Element → Bool
  | .EmailToHtml, .Email _ => true
  | .HtmlSelectCss _, .Html _ => true
  | .HtmlFilterCss _, .Html _ => true
  | .HtmlInnerText, .Html _ => true
  | .HtmlOuterHtml, .Html _ => true
  | .HtmlInnerHtml, .Html _ => true
  | .TextMatchRegex _ _, .Text _ => true
  | .TextFilterRegex _, .Text _ => true
  | .TextToHtml, .Text _ => true
  | .HtmlGetAttr _, .Html _ => true
  | .TextToUrl, .Text _ => true
  | .UrlToText, .Url _ => true
  | .UrlFollowRedirect, .Url _ => true
  | .UrlGetQuery _, .Url _ => true
  | .EmailFilterRegex _ _, .Email _ => true
  | .UrlGetSegment _, .Url _ => true
  | .ArraySelectNth _, _ => true
  | .Or _ _, _ => true
  | .EmailGetAttr _, .Email _ => true
  | .Pair _ _, _ => true
  | .Filter _, _ => true
  | .PairGetLeft, .Pair _ _ => true
  | .PairGetRight, .Pair _ _ => true
  | .PairZipTogether, .Pair _ _ => true
  | .PairDistributeLeft, .Pair _ _ => true
  | .PairRightLeft, .Pair _ _ => true
  | _, _ => false

/-- `exec_action` from `src/api/execute_script.rs`: evaluate one action
against one element, returning the elements the task emits on the
channel in emission order, or the single error it signals.  `sub` is the
recursive invocation of the pipeline driver used by the three
combinators; `element_index` is the task's positional input index within
the current stage.  Arms appear in source order; the final arm is the
source's `_ => {}` (the task sends only `Done`). -/
def execAction (sub : List Action → List Element → PipelineResult)
    (config : Config) (orc : Oracles)
    (action : Action) (element_index : Nat) (element : Element) : PipelineResult :=
  match action, element with
  | .EmailToHtml, .Email email =>
    match orc.read_to_string (config.storage.file_root ++ "/" ++ email.html) with
    | .ok s => some (.ok [.Html s])
    | .error _ => some (.error .InternalError)
  | .HtmlSelectCss sel, .Html s =>
    if orc.selector_ok sel then
      some (.ok ((orc.css_select sel s).map Element.Html))
    else
      some (.error (.InvalidInput sel))
  | .HtmlFilterCss sel, .Html s =>
    if orc.selector_ok sel then
      some (.ok (if (orc.css_select sel s).length ≠ 0 then [.Html s] else []))
    else
      some (.error (.InvalidInput sel))
  | .HtmlInnerText, .Html s =>
    some (.ok ((orc.fragment_inner_text s).toList.map Element.Text))
  | .HtmlOuterHtml, .Html s => some (.ok [.Text s])
  | .HtmlInnerHtml, .Html s =>
    some (.ok ((orc.fragment_inner_html s).toList.map Element.Text))
  | .TextMatchRegex re tmpl, .Text s =>
    if orc.regex_ok re then
      some (.ok ((orc.regex_captures_expand re tmpl s).map Element.Text))
    else
      some (.error (.InvalidInput re))
  | .TextFilterRegex re, .Text s =>
    if orc.regex_ok re then
      some (.ok (if orc.regex_is_match re s then [.Text s] else []))
    else
      some (.error (.InvalidInput re))
  | .TextToHtml, .Text s => some (.ok [.Html s])
  | .HtmlGetAttr attr, .Html s =>
    some (.ok ((orc.fragment_attr s attr).toList.map Element.Text))
  | .TextToUrl, .Text s =>
    match orc.url_parse s with
    | some u => some (.ok [.Url u])
    | none => some (.error (.InvalidInput s))
  | .UrlToText, .Url u => some (.ok [.Text u.to_string])
  | .UrlFollowRedirect, .Url u =>
    match orc.cache_get u with
    | some cached => some (.ok [.Url cached])
    | none =>
      if orc.client_build_ok then
        match orc.http_get u with
        | some final => some (.ok [.Url final])
        | none => some (.ok [])
      else
        some (.error .InternalError)
  | .UrlGetQuery k, .Url u =>
    match u.query_pairs.find? (fun p => p.1 = k) with
    | some p => some (.ok [.Text p.2])
    | none => some (.ok [])
  | .EmailFilterRegex attr re, .Email email =>
    if orc.regex_ok re then
      some (.ok (if orc.regex_is_match re (email.get_attribute attr) then [.Email email] else []))
    else
      some (.error (.InvalidInput re))
  | .UrlGetSegment i, .Url u =>
    match u.path_segments with
    | none => some (.ok [])
    | some segments =>
      let seg :=
        if i < 0 then
          segments.reverse.get? (url_segment_neg_offset i)
        else
          segments.get? (i8_as_usize i)
      some (.ok (seg.toList.map Element.Text))
  | .ArraySelectNth target, el =>
    some (.ok (if target = element_index then [el] else []))
  | .Or actions1 actions2, el =>
    match sub actions1 [el] with
    | none => none
    | some (.error e) => some (.error e)
    | some (.ok r) =>
      if r.isEmpty then
        match sub actions2 [el] with
        | none => none
        | some (.error e) => some (.error e)
        | some (.ok r2) => some (.ok r2)
      else
        some (.ok r)
  | .EmailGetAttr attr, .Email email => some (.ok [.Text (email.get_attribute attr)])
  | .Pair actions1 actions2, el =>
    match sub actions1 [el] with
    | none => none
    | some (.error e) => some (.error e)
    | some (.ok els1) =>
      match sub actions2 [el] with
      | none => none
      | some (.error e) => some (.error e)
      | some (.ok els2) => some (.ok [.Pair els1 els2])
  | .Filter actions, el =>
    match sub actions [el] with
    | none => none
    | some (.error e) => some (.error e)
    | some (.ok els) => some (.ok (if !els.isEmpty then [el] else []))
  | .PairGetLeft, .Pair elements1 _ => some (.ok elements1)
  | .PairGetRight, .Pair _ elements2 => some (.ok elements2)
  | .PairZipTogether, .Pair elements1 elements2 =>
    some (.ok ((elements1.zip elements2).map (fun p => Element.Pair [p.1] [p.2])))
  | .PairDistributeLeft, .Pair elements1 elements2 =>
    some (.ok (elements2.map (fun el2 => Element.Pair elements1 [el2])))
  | .PairRightLeft, .Pair elements1 elements2 => some (.ok [.Pair elements2 elements1])
  | _, _ => some (.ok [])

/-- The single-pass macro expansion at the head of `exec_pipeline`
(`src/api/execute_script.rs` lines 556-567): each top-level
`Macro(name)` is replaced by the actions of the first configured macro
with that name, inlined verbatim (bodies are not re-expanded); the first
unknown macro name aborts with `InvalidInput(name)`; every other action
is kept. -/
def expandMacros (config : Config) : List Action → Except Error (List Action)
  | [] => .ok []
  | .Macro macro_name :: rest =>
    match config.macros.find? (fun mac => mac.name = macro_name) with
    | some mac =>
      match expandMacros config rest with
      | .ok tail => .ok (mac.actions ++ tail)
      | .error e => .error e
    | none => .error (.InvalidInput macro_name)
  | a :: rest =>
    match expandMacros config rest with
    | .ok tail => .ok (a :: tail)
    | .error e => .error e

/-- One pipeline stage (`src/api/execute_script.rs` lines 578-609): one
executor task per `(index, element)` pair of the current vector; the
collected outputs replace the vector, and the first error aborts the
stage.  The concurrent fan-out is modelled by the deterministic schedule
that runs tasks in input-index order. -/
def runTasks (sub : List Action → List Element → PipelineResult)
    (config : Config) (orc : Oracles) (action : Action) :
    Nat → List Element → PipelineResult
  | _, [] => some (.ok [])
  | i, el :: rest =>
    match execAction sub config orc action i el with
    | none => none
    | some (.error e) => some (.error e)
    | some (.ok outs) =>
      match runTasks sub config orc action (i + 1) rest with
      | none => none
      | some (.error e) => some (.error e)
      | some (.ok outs2) => some (.ok (outs ++ outs2))

/-- The stage loop of `exec_pipeline` (`src/api/execute_script.rs`
lines 573-610): for each expanded action in order, return the element
vector unchanged when it is empty (early exit), otherwise run the stage
and continue with its outputs. -/
def runStages (sub : List Action → List Element → PipelineResult)
    (config : Config) (orc : Oracles) :
    List Action → List Element → PipelineResult
  | [], els => some (.ok els)
  | action :: rest, els =>
    if els.isEmpty then some (.ok els)
    else
      match runTasks sub config orc action 0 els with
      | none => none
      | some (.error e) => some (.error e)
      | some (.ok els2) => runStages sub config orc rest els2

/-- `exec_pipeline` from `src/api/execute_script.rs`: expand macros
once, return the seed unchanged when the expanded action list is empty,
otherwise run the stages.  `fuel` bounds the nesting depth of recursive
sub-pipelines; one unit is consumed per pipeline invocation. -/
def execPipeline : Nat → Config → Oracles → List Action → List Element → PipelineResult
  | 0, _, _, _, _ => none
  | fuel + 1, config, orc, actions, elements =>
    match expandMacros config actions with
    | .error e => some (.error e)
    | .ok expanded =>
      if expanded.isEmpty then some (.ok elements)
      else runStages (execPipeline fuel config orc) config orc expanded elements

/-- `flatten_serde_pair` from `src/api/execute_script.rs`
(lines 615-627), with the `&mut Vec` accumulator turned into the list of
pushed elements in push order: a `Pair(left, right)` becomes the
flattening of `left`'s first element followed by the flattening of
`right`'s first element; any other variant is pushed as-is. -/
def flattenSerdePair : SerdeElement → List SerdeElement
  | .Pair [] [] => []
  | .Pair [] (first2 :: _) => flattenSerdePair first2
  | .Pair (first1 :: _) [] => flattenSerdePair first1
  | .Pair (first1 :: _) (first2 :: _) => flattenSerdePair first1 ++ flattenSerdePair first2
  | other => [other]

/-- The tabular projection of the route handler (`execute_script`,
lines 678-686): each top-level serialized element becomes one row by
flattening it into a fresh vector. -/
def tabularRows (data : List SerdeElement) : List (List SerdeElement) :=
  data.map flattenSerdePair

/-- A concrete configuration whose macro `m` has a body containing the
nested `Macro "m2"`, with `m2` itself a known macro; used as a concrete
input by counterexamples and witnesses. -/
def cfgNested : Config :=
  { storage := { file_root := "files" }
    macros := [{ name := "m", actions := [Action.Macro "m2"] },
               { name := "m2", actions := [Action.TextToHtml] }] }

/-- A trivial oracle instantiation (every external call fails or
returns nothing); used as a concrete input by counterexamples and
witnesses. -/
def orcTrivial : Oracles :=
  { read_to_string := fun _ => .error ()
    selector_ok := fun _ => false
    css_select := fun _ _ => []
    fragment_inner_text := fun _ => none
    fragment_inner_html := fun _ => none
    fragment_attr := fun _ _ => none
    regex_ok := fun _ => false
    regex_captures_expand := fun _ _ _ => []
    regex_is_match := fun _ _ => false
    url_parse := fun _ => none
    cache_get := fun _ => none
    client_build_ok := true
    http_get := fun _ => none }

/-- An element outside an action's input-variant precondition is
silently dropped by the executor: the task emits no element and no
error (the source's final `_ => {}` arm followed by `Done`). -/
theorem execAction_mismatch (sub : List Action → List Element → PipelineResult)
    (config : Config) (orc : Oracles) (a : Action) (i : Nat) (el : Element)
    (h : inputMatches a el = false) :
    execAction sub config orc a i el = some (Except.ok []) := by
  cases a <;> cases el <;> simp_all [inputMatches, execAction]

/-- A non-macro action expands to itself. -/
theorem expandMacros_singleton_of_not_macro (config : Config) (a : Action)
    (hmac : ∀ s, a ≠ Action.Macro s) :
    expandMacros config [a] = Except.ok [a] := by
  cases a
  case Macro s => exact absurd rfl (hmac s)
  all_goals rfl

/-- The stage loop on an empty element vector returns the empty vector
for any remaining actions. -/
theorem runStages_nil_elements (sub : List Action → List Element → PipelineResult)
    (config : Config) (orc : Oracles) (actions : List Action) :
    runStages sub config orc actions [] = some (Except.ok []) := by
  cases actions <;> simp [runStages]

/-- The stage loop processes a concatenation of action lists by
processing the first list and feeding its output to the second. -/
theorem runStages_append (sub : List Action → List Element → PipelineResult)
    (config : Config) (orc : Oracles) (s1 s2 : List Action) (els : List Element) :
    runStages sub config orc (s1 ++ s2) els =
      match runStages sub config orc s1 els with
      | some (Except.ok els2) => runStages sub config orc s2 els2
      | other => other := by
  induction s1 generalizing els with
  | nil => simp [runStages]
  | cons a s1 ih =>
    by_cases hels : els.isEmpty
    · have : els = [] := List.isEmpty_iff.mp hels
      subst this
      simp [runStages, runStages_nil_elements]
    · simp only [List.cons_append, runStages, hels, if_neg, Bool.false_eq_true,
        not_false_eq_true, if_false]
      cases runTasks sub config orc a 0 els with
      | none => rfl
      | some r =>
        cases r with
        | error e => rfl
        | ok els2 => exact ih els2

/-- The stage for `ArraySelectNth i` with tasks numbered from `j`
yields the element whose input index is `i`, when present. -/
theorem runTasks_arraySelectNth (sub : List Action → List Element → PipelineResult)
    (config : Config) (orc : Oracles) (i : Nat) (els : List Element) :
    ∀ j : Nat,
      runTasks sub config orc (Action.ArraySelectNth i) j els =
        some (Except.ok (if j ≤ i then (els.get? (i - j)).toList else [])) := by
  induction els with
  | nil => intro j; simp [runTasks]
  | cons el rest ih =>
    intro j
    simp only [runTasks, execAction, ih (j + 1)]
    by_cases hij : i = j
    · subst hij
      simp [Nat.sub_self, Nat.le_refl, show ¬ (i + 1 ≤ i) by omega]
    · by_cases hle : j ≤ i
      · have h1 : j + 1 ≤ i := by omega
        have h2 : i - j = (i - (j + 1)) + 1 := by omega
        simp [hij, hle, h1, h2]
      · simp [hij, hle, show ¬ (j + 1 ≤ i) by omega]

/-- USIZE as a numeral, for the arithmetic below. -/
theorem USIZE_eq : USIZE = 18446744073709551616 := by norm_num [USIZE]

/-- The wrapped age of an entry inserted at the current counter value
is zero. -/
theorem wrappingSub_self (a : Nat) (_ha : a < USIZE) : wrappingSub a a = 0 := by
  unfold wrappingSub
  rw [USIZE_eq] at *
  omega

/-- After the counter advances past an entry inserted at its previous
value, that entry's wrapped age is one. -/
theorem wrappingSub_succ_self (a : Nat) (_ha : a < USIZE) :
    wrappingSub ((a + 1) % USIZE) a = 1 := by
  unfold wrappingSub
  rw [USIZE_eq] at *
  omega

/-- Advancing the counter by one increases a wrapped age by one, so
long as that does not itself wrap. -/
theorem wrappingSub_succ (a b : Nat) (ha : a < USIZE) (_hb : b < USIZE)
    (h : wrappingSub a b + 1 < USIZE) :
    wrappingSub ((a + 1) % USIZE) b = wrappingSub a b + 1 := by
  unfold wrappingSub at *
  rw [USIZE_eq] at *
  omega

/-- The fresh cache satisfies the reachable-state invariant. -/
theorem cacheInv_new {K V : Type} {N : Nat} (hN : 0 < N) :
    CacheInv (Cache.new : Cache K V N) := by
  refine ⟨?_, by simpa [Cache.new] using hN, ?_⟩
  · show (0 : Nat) < USIZE
    rw [USIZE_eq]
    omega
  · intro e he
    simp [Cache.new] at he

/-- Every entry present after an insert is the newly stored entry or
one that was already present. -/
theorem mem_insert_data {K V : Type} [DecidableEq K] {N : Nat}
    (c : Cache K V N) (k : K) (v : V) :
    ∀ e ∈ (c.insert k v).data,
      e = (k, CacheEntry.mk v (c.last_id % USIZE)) ∨ e ∈ c.data := by
  intro e he
  simp only [Cache.insert] at he
  have he2 : e ∈ (k, CacheEntry.mk v (c.last_id % USIZE)) ::
      c.data.filter (fun x => x.1 ≠ k) := by
    split at he
    · exact List.mem_of_mem_filter he
    · exact he
  rcases List.mem_cons.mp he2 with h | h
  · exact Or.inl h
  · exact Or.inr (List.mem_of_mem_filter h)

/-- One insert with a key fresh for the current map preserves the
reachable-state invariant: either the map stays strictly below `N`
with every age bumped by one, or the size reaches `N` and the retain
pass (which keeps only entries of wrapped age at least `N`) deletes
every entry, the new one included. -/
theorem cacheInv_insert {K V : Type} [DecidableEq K] {N : Nat}
    (hN : 0 < N) (hU : N ≤ USIZE)
    (c : Cache K V N) (hc : CacheInv c)
    (k : K) (v : V) (hk : ∀ e ∈ c.data, e.1 ≠ k) :
    CacheInv (c.insert k v) := by
  obtain ⟨hlast, hlen, hent⟩ := hc
  have hid : c.last_id % USIZE = c.last_id := Nat.mod_eq_of_lt hlast
  have hfilter : c.data.filter (fun e => e.1 ≠ k) = c.data := by
    rw [List.filter_eq_self]
    intro e he
    simpa using hk e he
  by_cases htrig : N ≤ c.data.length + 1
  · have hwipe : ((k, CacheEntry.mk v c.last_id) :: c.data).filter
        (fun e => N ≤ wrappingSub c.last_id e.2.id) = [] := by
      rw [List.filter_eq_nil_iff]
      intro e he
      rcases List.mem_cons.mp he with h | h
      · subst h
        simp [wrappingSub_self c.last_id hlast]
        omega
      · obtain ⟨_, h1, h2⟩ := hent e h
        simp
        omega
    have heq : c.insert k v = { data := [], last_id := (c.last_id + 1) % USIZE } := by
      simp only [Cache.insert, hid, hfilter]
      rw [if_pos (by simpa using htrig), hwipe]
    rw [heq]
    refine ⟨Nat.mod_lt _ (by rw [USIZE_eq]; omega), by simpa using hN, ?_⟩
    intro e he
    simp at he
  · have heq : c.insert k v =
        { data := (k, CacheEntry.mk v c.last_id) :: c.data,
          last_id := (c.last_id + 1) % USIZE } := by
      simp only [Cache.insert, hid, hfilter]
      rw [if_neg (by simpa using htrig)]
    rw [heq]
    refine ⟨Nat.mod_lt _ (by rw [USIZE_eq]; omega), by simp; omega, ?_⟩
    intro e he
    rcases List.mem_cons.mp he with h | h
    · subst h
      refine ⟨hlast, ?_, ?_⟩ <;> simp [wrappingSub_succ_self c.last_id hlast]
    · obtain ⟨hidlt, h1, h2⟩ := hent e h
      have hbound : wrappingSub c.last_id e.2.id + 1 < USIZE := by omega
      rw [wrappingSub_succ c.last_id e.2.id hlast hidlt hbound]
      refine ⟨hidlt, by omega, ?_⟩
      simp
      omega

/-- Folding inserts whose keys are pairwise distinct and fresh for the
current map preserves the reachable-state invariant. -/
theorem cacheInv_insertAll {K V : Type} [DecidableEq K] {N : Nat}
    (hN : 0 < N) (hU : N ≤ USIZE) :
    ∀ (kvs : List (K × V)) (c : Cache K V N),
      CacheInv c → (kvs.map Prod.fst).Nodup →
      (∀ e ∈ c.data, ∀ kv ∈ kvs, e.1 ≠ kv.1) →
      CacheInv (c.insertAll kvs) := by
  intro kvs
  induction kvs with
  | nil => intro c hc _ _; simpa [Cache.insertAll] using hc
  | cons kv rest ih =>
    intro c hc hnd hfresh
    have hstep : c.insertAll (kv :: rest) = (c.insert kv.1 kv.2).insertAll rest := rfl
    rw [hstep]
    have hkfresh : ∀ e ∈ c.data, e.1 ≠ kv.1 := by
      intro e he
      exact hfresh e he kv (List.mem_cons_self kv rest)
    refine ih (c.insert kv.1 kv.2) (cacheInv_insert hN hU c hc kv.1 kv.2 hkfresh) ?_ ?_
    · exact (List.nodup_cons.mp (by simpa using hnd)).2
    · intro e he kv2 hkv2
      rcases mem_insert_data c kv.1 kv.2 e he with h | h
      · subst h
        have : kv.1 ∉ rest.map Prod.fst := (List.nodup_cons.mp (by simpa using hnd)).1
        intro hcontra
        exact this (by rw [hcontra]; exact List.mem_map_of_mem Prod.fst hkv2)
      · exact hfresh e h kv2 (List.mem_cons_of_mem kv hkv2)

/-- C1: evaluating `Cache::insert` at the failing input shows the
retain predicate is inverted relative to the claim.  With `N = 2` (the
redirect cache instantiates the same generic code with `N = 1000`),
inserting two distinct keys into the fresh cache reaches size `N`; the
claim (and spec §4.3) says exactly the entries of age ≥ N are removed —
here none, both having age below `N` — yet the source's
`retain(|_k, v| id.wrapping_sub(v.id) >= N)` KEEPS the entries of age
≥ N and so deletes both entries, the just-inserted one included.  The
spec-worded `Cache.insertSpec` retains both. -/
theorem cache_insert_evicts_young_entries :
    (((Cache.new : Cache Nat Nat 2).insert 0 10).insert 1 11).data = []
    ∧ ((((Cache.new : Cache Nat Nat 2).insertSpec 0 10).insertSpec 1 11).data.map
        Prod.fst) = [1, 0] :=
  ⟨rfl, rfl⟩

/-- C7: starting from the fresh cache, any sequence of insertions with
pairwise-distinct keys keeps the map size at most `N` after every
insertion (for any prefix of the sequence), for every capacity
`0 < N ≤ 2^64`; the redirect cache is this code at `N = 1000`. -/
theorem url_cache_size_bound {K V : Type} [DecidableEq K] (N : Nat)
    (kvs : List (K × V)) (hN : 0 < N) (hU : N ≤ USIZE)
    (hnd : (kvs.map Prod.fst).Nodup) (i : Nat) :
    (((Cache.new : Cache K V N).insertAll (kvs.take i)).data).length ≤ N := by
  have hinv : CacheInv ((Cache.new : Cache K V N).insertAll (kvs.take i)) := by
    refine cacheInv_insertAll hN hU (kvs.take i) Cache.new (cacheInv_new hN) ?_ ?_
    · exact hnd.sublist ((List.take_sublist i kvs).map Prod.fst)
    · intro e he
      simp [Cache.new] at he
  exact Nat.le_of_lt hinv.2.1

/-- C7 (witness): one thousand distinct keys inserted into the
`N = 1000` cache leave at most one thousand entries. -/
theorem url_cache_size_bound_witness :
    0 < 1000 ∧ (((List.range 1000).map (fun k => (k, ()))).map Prod.fst).Nodup ∧
      (((Cache.new : Cache Nat Unit 1000).insertAll
        (((List.range 1000).map (fun k => (k, ()))).take 1000)).data).length ≤ 1000 := by
  have hnd : (((List.range 1000).map (fun k => (k, ()))).map Prod.fst).Nodup := by
    have heq : (((List.range 1000).map (fun k => (k, ()))).map Prod.fst) =
        List.range 1000 := by
      rw [List.map_map]
      exact List.map_id' (List.range 1000)
    rw [heq]
    exact List.nodup_range 1000
  exact ⟨by omega, hnd,
    url_cache_size_bound 1000 ((List.range 1000).map (fun k => (k, ())))
      (by omega) (by rw [USIZE_eq]; omega) hnd 1000⟩

/-- C2 (counterexample): with macro `m` whose body is the nested
`Macro "m2"` (and `m2` itself configured), expansion of the script
`[Macro "m"]` leaves the action `Macro "m2"` in the executed sequence,
and executing the pipeline on `[Text "x"]` succeeds with the empty
vector — it does NOT fail with `InvalidInput` as the claim states: the
leftover macro action falls into the executor's catch-all arm and
silently drops the element. -/
theorem nested_macro_drop_counterexample :
    expandMacros cfgNested [Action.Macro "m"] = Except.ok [Action.Macro "m2"]
    ∧ execPipeline 1 cfgNested orcTrivial [Action.Macro "m"] [Element.Text "x"] =
      some (Except.ok []) :=
  ⟨rfl, rfl⟩

/-- C2 (amended): macro expansion is single-pass — a macro body is
inlined verbatim in front of the expansion of the rest, without being
re-expanded — and a `Macro(name)` action left in the executed sequence
silently drops every element it is executed against (zero outputs, no
error), so the pipeline does not fail with `InvalidInput` at runtime. -/
theorem nested_macro_silent_drop :
    (∀ (fuel : Nat) (config : Config) (orc : Oracles) (name : String) (i : Nat) (el : Element),
      execAction (execPipeline fuel config orc) config orc (Action.Macro name) i el =
        some (Except.ok []))
    ∧ ∀ (config : Config) (name : String) (mac : Macro) (rest tail : List Action),
        config.macros.find? (fun m => m.name = name) = some mac →
        expandMacros config rest = Except.ok tail →
        expandMacros config (Action.Macro name :: rest) = Except.ok (mac.actions ++ tail) := by
  constructor
  · intro fuel config orc name i el
    cases el <;> rfl
  · intro config name mac rest tail h1 h2
    simp [expandMacros, h1, h2]

/-- C2 (witness): the amended statement applied at the concrete nested
configuration. -/
theorem nested_macro_silent_drop_witness :
    execAction (execPipeline 0 cfgNested orcTrivial) cfgNested orcTrivial
        (Action.Macro "m2") 0 (Element.Text "x") = some (Except.ok [])
    ∧ expandMacros cfgNested [Action.Macro "m"] =
        Except.ok ([Action.Macro "m2"] ++ []) :=
  ⟨nested_macro_silent_drop.1 0 cfgNested orcTrivial "m2" 0 (Element.Text "x"),
   nested_macro_silent_drop.2 cfgNested "m"
     { name := "m", actions := [Action.Macro "m2"] } [] [] rfl rfl⟩

/-- C3: for every non-macro action `a` and element `el` outside `a`'s
static input-variant precondition, the one-action pipeline `[a]` on
`[el]` returns the empty vector and no error. -/
theorem type_mismatch_silent (fuel : Nat) (config : Config) (orc : Oracles)
    (a : Action) (el : Element)
    (hmac : ∀ s, a ≠ Action.Macro s) (h : inputMatches a el = false) :
    execPipeline (fuel + 1) config orc [a] [el] = some (Except.ok []) := by
  have hexp := expandMacros_singleton_of_not_macro config a hmac
  have hact := execAction_mismatch (execPipeline fuel config orc) config orc a 0 el h
  simp [execPipeline, hexp, runStages, runTasks, hact]

/-- C3 (witness): `HtmlInnerText` on a `Text` element is dropped
silently by the one-action pipeline. -/
theorem type_mismatch_silent_witness :
    inputMatches Action.HtmlInnerText (Element.Text "x") = false
    ∧ execPipeline 1 cfgNested orcTrivial [Action.HtmlInnerText] [Element.Text "x"] =
      some (Except.ok []) :=
  ⟨rfl, type_mismatch_silent 0 cfgNested orcTrivial Action.HtmlInnerText (Element.Text "x")
    (fun s h => Action.noConfusion h) rfl⟩

/-- C4: `Or(a, b)` on one element emits exactly the result of the left
sub-pipeline `a` on `[el]`; only when that result is the empty vector
does it instead emit the result of `b` on `[el]`; an error (or fuel
exhaustion) of the left sub-pipeline is propagated unchanged, so the
right side is never consulted on error — emptiness is the only trigger. -/
theorem or_combinator_semantics (fuel : Nat) (config : Config) (orc : Oracles)
    (a b : List Action) (i : Nat) (el : Element) :
    execAction (execPipeline fuel config orc) config orc (Action.Or a b) i el =
      match execPipeline fuel config orc a [el] with
      | some (Except.ok r) =>
        if r.isEmpty then execPipeline fuel config orc b [el] else some (Except.ok r)
      | other => other := by
  have hbody : execAction (execPipeline fuel config orc) config orc (Action.Or a b) i el =
      (match execPipeline fuel config orc a [el] with
       | none => none
       | some (.error e) => some (.error e)
       | some (.ok r) =>
         if r.isEmpty then
           match execPipeline fuel config orc b [el] with
           | none => none
           | some (.error e) => some (.error e)
           | some (.ok r2) => some (.ok r2)
         else some (.ok r)) := by
    cases el <;> rfl
  rw [hbody]
  rcases execPipeline fuel config orc a [el] with _ | r
  · rfl
  · rcases r with e | r
    · rfl
    · by_cases hr : r.isEmpty
      · simp only [hr, if_true]
        rcases execPipeline fuel config orc b [el] with _ | r2
        · rfl
        · rcases r2 with e2 | r2 <;> rfl
      · simp [hr]

/-- C5: the pipeline driver short-circuits on emptiness: if the element
vector is empty after a prefix `s1` of the (macro-expanded) stages, the
remaining stages `s2` are skipped and the final result is that same
empty result; and when the action list is empty after macro expansion,
the pipeline returns the seed vector unchanged. -/
theorem empty_short_circuit (fuel : Nat) (config : Config) (orc : Oracles)
    (s1 s2 actions : List Action) (els : List Element) :
    (runStages (execPipeline fuel config orc) config orc s1 els = some (Except.ok []) →
      runStages (execPipeline fuel config orc) config orc (s1 ++ s2) els =
        some (Except.ok []))
    ∧ (expandMacros config actions = Except.ok [] →
      execPipeline (fuel + 1) config orc actions els = some (Except.ok els)) := by
  constructor
  · intro h
    rw [runStages_append, h]
    exact runStages_nil_elements _ _ _ _
  · intro h
    simp [execPipeline, h]

/-- C5 (witness): a stage that drops its only element short-circuits
the remaining stages, and an empty script returns the seed unchanged. -/
theorem empty_short_circuit_witness :
    runStages (execPipeline 0 cfgNested orcTrivial) cfgNested orcTrivial
        ([Action.HtmlInnerText] ++ [Action.TextToHtml]) [Element.Text "x"] =
      some (Except.ok [])
    ∧ execPipeline 1 cfgNested orcTrivial [] [Element.Text "x"] =
      some (Except.ok [Element.Text "x"]) :=
  ⟨(empty_short_circuit 0 cfgNested orcTrivial [Action.HtmlInnerText] [Action.TextToHtml]
      [] [Element.Text "x"]).1 rfl,
   (empty_short_circuit 0 cfgNested orcTrivial [] [] [] [Element.Text "x"]).2 rfl⟩

/-- C6: the one-action pipeline `[ArraySelectNth i]` on any stage input
vector yields exactly the singleton of the element at 0-based input
position `i` when `i` is in range, and the empty vector otherwise,
independent of element variants. -/
theorem array_select_nth_partition (fuel : Nat) (config : Config) (orc : Oracles)
    (i : Nat) (els : List Element) :
    execPipeline (fuel + 1) config orc [Action.ArraySelectNth i] els =
      some (Except.ok (els.get? i).toList) := by
  cases els with
  | nil => rfl
  | cons el rest =>
    have hstage := runTasks_arraySelectNth (execPipeline fuel config orc) config orc i
      (el :: rest) 0
    simp [execPipeline, expandMacros, runStages, hstage, runStages_nil_elements]

/-- C8: for every string `t`, the script `[TextToHtml, HtmlOuterHtml]`
on the single element `Text(t)` yields exactly `[Text(t)]`:
`HtmlOuterHtml` passes the stored HTML string through verbatim without
re-serialization. -/
theorem text_to_html_outer_html_roundtrip (fuel : Nat) (config : Config)
    (orc : Oracles) (t : String) :
    execPipeline (fuel + 1) config orc [Action.TextToHtml, Action.HtmlOuterHtml]
      [Element.Text t] = some (Except.ok [Element.Text t]) := rfl

/-- C9: the tabular flattening replaces a `Pair(L, R)` by the recursive
flattening of `L`'s first element followed by the recursive flattening
of `R`'s first element (non-first elements of each side are discarded),
and keeps every non-`Pair` variant as a singleton unchanged. -/
theorem flatten_serde_pair_spec :
    (∀ L R : List SerdeElement,
      flattenSerdePair (SerdeElement.Pair L R) =
        (match L with | [] => [] | first :: _ => flattenSerdePair first) ++
        (match R with | [] => [] | first :: _ => flattenSerdePair first))
    ∧ (∀ s, flattenSerdePair (SerdeElement.Text s) = [SerdeElement.Text s])
    ∧ (∀ s, flattenSerdePair (SerdeElement.Html s) = [SerdeElement.Html s])
    ∧ (∀ id, flattenSerdePair (SerdeElement.Email id) = [SerdeElement.Email id])
    ∧ (∀ s, flattenSerdePair (SerdeElement.Url s) = [SerdeElement.Url s]) := by
  refine ⟨?_, fun _ => rfl, fun _ => rfl, fun _ => rfl, fun _ => rfl⟩
  intro L R
  cases L <;> cases R <;> simp [flattenSerdePair]

/-- C10 (counterexample): at the script-expressible index `i = −128`,
the executor's intermediate value `−i` leaves the `i8` range (an
arithmetic overflow, a panic under checked arithmetic), so the claim
that the computation of `−i − 1` stays within the 8-bit signed type is
false; under two's-complement wrapping the negation yields `−128` and
the computed from-the-end offset is `127`. -/
theorem url_get_segment_neg128_counterexample :
    ¬ i8InRange (-(-128 : Int)) ∧ wrapI8 (-(-128 : Int)) = -128 ∧
      url_segment_neg_offset (-128) = 127 := by decide

/-- C10 (amended): for every `i8` index `i < 0`, the wrapped
computation of the from-the-end offset equals the mathematical
`−i − 1` (even at `i = −128`, where the intermediate negation
overflows `i8` but the wrapped result is still `127 = −i − 1`); for
`−127 ≤ i` the computation stays within the `i8` range as claimed; and
`UrlGetSegment(i)` on a `Url` with path segments emits the `(−i)`-th
segment from the end, or nothing when out of range, without any
observable wrong result. -/
theorem url_get_segment_negative_index (i : Int) (h1 : -128 ≤ i) (h2 : i < 0) :
    url_segment_neg_offset i = (-i - 1).toNat
    ∧ (-127 ≤ i → i8InRange (-i) ∧ i8InRange (-i - 1))
    ∧ ∀ (fuel : Nat) (config : Config) (orc : Oracles) (j : Nat) (u : Url)
        (segments : List String),
        u.path_segments = some segments →
        execAction (execPipeline fuel config orc) config orc (Action.UrlGetSegment i) j
            (Element.Url u) =
          some (Except.ok
            ((segments.reverse.get? ((-i - 1).toNat)).toList.map Element.Text)) := by
  have h64 : (USIZE : Int) = 18446744073709551616 := by norm_num [USIZE]
  have hoff : url_segment_neg_offset i = (-i - 1).toNat := by
    unfold url_segment_neg_offset i8_as_usize wrapI8
    rw [h64]
    omega
  refine ⟨hoff, fun h3 => ⟨⟨by omega, by omega⟩, ⟨by omega, by omega⟩⟩, ?_⟩
  intro fuel config orc j u segments hseg
  simp [execAction, hseg, h2, hoff]

/-- C10 (witness): the amended statement at `i = −1`, the last-segment
index. -/
theorem url_get_segment_negative_index_witness :
    (-128 : Int) ≤ -1 ∧ (-1 : Int) < 0 ∧
      url_segment_neg_offset (-1) = (-(-1 : Int) - 1).toNat :=
  ⟨by decide, by decide, (url_get_segment_negative_index (-1) (by decide) (by decide)).1⟩

end EPV
